import Mathlib

/-!
Shallow embedding of the uavmvs guidance-volume sampler
(src/unnamed/part_000) and the trajectory evaluator
(src/apps/evaluate_trajectory/evaluate_trajectory.cu).

Floating-point scalars are modelled as rationals; the float sentinel
`lowest` used by the height map as an "unset" marker is modelled as
`Option` (`none` = unset).  C `int` casts of non-negative quantities are
modelled by truncation toward zero (`cint`).
-/

/-- Two-component vector (models cacc::Vec2f / math::Vec2f). -/
structure Vec2 where
  x : ℚ
  y : ℚ
deriving DecidableEq

/-- Three-component vector (models math::Vec3f / cacc::Vec3f). -/
structure Vec3 where
  x : ℚ
  y : ℚ
  z : ℚ
deriving DecidableEq

instance : Add Vec3 := ⟨fun a b => ⟨a.x + b.x, a.y + b.y, a.z + b.z⟩⟩

instance : Sub Vec3 := ⟨fun a b => ⟨a.x - b.x, a.y - b.y, a.z - b.z⟩⟩

/-- Scalar multiplication of a 3-vector. -/
def vsmul (c : ℚ) (v : Vec3) : Vec3 := ⟨c * v.x, c * v.y, c * v.z⟩

/-- Dot product. -/
def vdot (a b : Vec3) : ℚ := a.x * b.x + a.y * b.y + a.z * b.z

/-- Cross product. -/
def vcross (a b : Vec3) : Vec3 :=
  ⟨a.y * b.z - a.z * b.y, a.z * b.x - a.x * b.z, a.x * b.y - a.y * b.x⟩

/-- C-style cast of a float to int: truncation toward zero.
Models expressions like `int width = q + 1.0f` in part_000. -/
def cint (q : ℚ) : ℤ := if 0 ≤ q then ⌊q⌋ else ⌈q⌉

/-- Axis-aligned bounding box (models acc::AABB<math::Vec3f>). -/
structure AABB where
  lo : Vec3
  hi : Vec3
deriving DecidableEq

/-- Modelled from the spec: `acc::calculate_aabb` (acc/primitives.h is not
under src/): componentwise min/max over the vertex list; an empty list has
no finite AABB (the C++ version leaves the inverted float sentinels, which
fail the `valid` check), modelled as `none`. -/
def calculateAabb : List Vec3 → Option AABB
  | [] => none
  | v :: vs =>
    some (vs.foldl
      (fun ab w =>
        ⟨⟨min ab.lo.x w.x, min ab.lo.y w.y, min ab.lo.z w.z⟩,
         ⟨max ab.hi.x w.x, max ab.hi.y w.y, max ab.hi.z w.z⟩⟩)
      ⟨v, v⟩)

/-- Modelled from the spec: `acc::valid` — `min[i] <= max[i]` on every axis. -/
def validAabb (ab : AABB) : Bool :=
  decide (ab.lo.x ≤ ab.hi.x) && decide (ab.lo.y ≤ ab.hi.y) && decide (ab.lo.z ≤ ab.hi.z)

/-- Modelled from the spec: `acc::volume` — product of the extents. -/
def volumeAabb (ab : AABB) : ℚ :=
  (ab.hi.x - ab.lo.x) * (ab.hi.y - ab.lo.y) * (ab.hi.z - ab.lo.z)

/-- Grid width, from part_000: `int width = (aabb.max[0] - aabb.min[0]) / resolution + 1.0f`. -/
def widthOf (ab : AABB) (res : ℚ) : ℤ := cint ((ab.hi.x - ab.lo.x) / res + 1)

/-- Grid height, from part_000: `int height = (aabb.max[1] - aabb.min[1]) / resolution + 1.0f`. -/
def heightOf (ab : AABB) (res : ℚ) : ℤ := cint ((ab.hi.y - ab.lo.y) / res + 1)

/-- Grid depth, from part_000: `int depth = max_altitude / resolution + 1.0f`. -/
def depthOf (maxAlt res : ℚ) : ℤ := cint (maxAlt / res + 1)

/-- Sampler entry gate, from part_000 lines 130-141: compute the AABB of the
airspace-mesh vertices, `assert(acc::valid(aabb) && acc::volume(aabb) > 0.0f)`,
and only then compute the grid dimensions (first allocation follows).
The assert abort is modelled as `none`. -/
def samplerSetup (verts : List Vec3) (res maxAlt : ℚ) : Option (AABB × ℤ × ℤ × ℤ) :=
  match calculateAabb verts with
  | none => none
  | some ab =>
    if validAabb ab = true ∧ 0 < volumeAabb ab then
      some (ab, widthOf ab res, heightOf ab res, depthOf maxAlt res)
    else none

/-- Height-map cell grid: `none` models the `lowest` float sentinel that
`hmap->fill(lowest)` writes into every cell. -/
abbrev Grid := ℤ → ℤ → Option ℚ

/-- Cell index of a vertex, from part_000 lines 145-147:
`int x = (vertex[0] - aabb.min[0]) / resolution` (and likewise for y). -/
def cellIndex (ab : AABB) (res : ℚ) (v : Vec3) : ℤ × ℤ :=
  (cint ((v.x - ab.lo.x) / res), cint ((v.y - ab.lo.y) / res))

/-- One rasterization step, from part_000 lines 143-154: the vertex cell
reads its old value z, keeps it when `z > height` (`continue`) and is
overwritten with the vertex height otherwise; every other cell is
untouched.  An unset cell (`lowest`) always loses the comparison and is
overwritten. -/
def hmapStep (ab : AABB) (res : ℚ) (g : Grid) (v : Vec3) : Grid :=
  fun a b =>
    if (a, b) = cellIndex ab res v then
      match g a b with
      | some z => if v.z < z then some z else some v.z
      | none => some v.z
    else g a b

/-- Raw (pre-normalization) height map: the vertex rasterization loop. -/
def hmapRaw (ab : AABB) (res : ℚ) (verts : List Vec3) : Grid :=
  verts.foldl (hmapStep ab res) (fun _ _ => none)

/-- Linear enumeration of the width×height cells, modelling the loop
`for (int i = 0; i < hmap->get_value_amount(); ++i)`. -/
def cellList (w h : ℕ) : List (ℕ × ℕ) :=
  (List.range h).flatMap (fun y => (List.range w).map (fun x => (x, y)))

/-- Ground level, from part_000 lines 156-164: minimum over all finite
(non-sentinel) cells; if no cell is set the float `max` sentinel survives
(that case never reaches the claims and is modelled as 0). -/
def groundLevel (w h : ℕ) (g : Grid) : ℚ :=
  match (cellList w h).filterMap (fun c => g (c.1 : ℤ) (c.2 : ℤ)) with
  | [] => 0
  | q :: qs => qs.foldl min q

/-- Normalization, from part_000 lines 166-170: finite cells become
`height - ground_level`, unset cells become exactly 0. -/
def normalizeHmap (w h : ℕ) (g : Grid) : ℤ → ℤ → ℚ :=
  fun a b =>
    match g a b with
    | some q => q - groundLevel w h g
    | none => 0

/-- Normalized height map of the sampler pipeline. -/
def hmapNorm (ab : AABB) (res : ℚ) (verts : List Vec3) (w h : ℕ) : ℤ → ℤ → ℚ :=
  normalizeHmap w h (hmapRaw ab res verts)

/-- Admissibility of one z-layer, from part_000 lines 184-189:
`fz = max(hmap->at(x, y, 0), min_altitude)`, `pz = ground_level + z * resolution`,
skip iff `pz < fz`. -/
def admissible (hm : ℤ → ℤ → ℚ) (minAlt gl res : ℚ) (x y z : ℕ) : Bool :=
  decide (max (hm (x : ℤ) (y : ℤ)) minAlt ≤ gl + (z : ℚ) * res)

/-- The z-layers emitted for one (x,y) column, from part_000 lines 186-192. -/
def emittedZs (hm : ℤ → ℤ → ℚ) (minAlt gl res : ℚ) (depth : ℕ) (x y : ℕ) : List ℕ :=
  (List.range depth).filter (admissible hm minAlt gl res x y)

/-- The full sample-position list, from part_000 lines 178-194 (outer loop
over y, inner over x, innermost over z, `emplace_back(x, y, z)`). -/
def samplePositions (hm : ℤ → ℤ → ℚ) (minAlt gl res : ℚ) (w h depth : ℕ) :
    List (ℕ × ℕ × ℕ) :=
  (List.range h).flatMap fun y =>
    (List.range w).flatMap fun x =>
      (emittedZs hm minAlt gl res depth x y).map fun z => (x, y, z)

/-- Final volume contents, from part_000 lines 247-281: every voxel starts
without an image and `volume->at(sample_positions[i]) = image` is executed
exactly for the enumerated sample positions (the image contents come from
the device kernels and are abstracted by `img`). -/
def volumeAfter {α : Type} (positions : List (ℕ × ℕ × ℕ)) (img : ℕ × ℕ × ℕ → α) :
    (ℕ × ℕ × ℕ) → Option α :=
  positions.foldl (fun vol p => fun q => if q = p then some (img p) else vol q)
    (fun _ => none)

/-!
Trajectory evaluator (src/apps/evaluate_trajectory/evaluate_trajectory.cu).

The per-point accumulation is embedded from the reference per-point loop at
lines 173-203 (projection, image-bounds test, occlusion ray with
`tmin = 0.0f`, `tmax = inf`, capacity guard against `max_rows`, append);
its `stride` expression is completed exactly as the well-formed identical
expression at line 260.  The ray-intersection primitive of acc::BVHTree is
an external collaborator; it is modelled from the spec contract
("ray-intersection test") by the standard Moeller-Trumbore triangle test.
The float spherical encoding `(atan2(dir[1], dir[0]), acos(dir[2]))` of a
normalized direction is transcendental and is abstracted by a parameter
`enc` applied to the unnormalized view direction.
-/

/-- Per-point row-store capacity, from evaluate_trajectory.cu line 144:
`uint max_cameras = 20`. -/
def maxCameras : ℕ := 20

/-- Three-by-three matrix as rows (models math::Matrix3f). -/
structure Mat3 where
  r0 : Vec3
  r1 : Vec3
  r2 : Vec3
deriving DecidableEq

/-- The part of a 4x4 world-to-camera matrix consumed by
`w2c.mult(v, 1.0f)`: the top-left 3x3 block and the top of the fourth
column (translation). -/
structure Mat4 where
  lin : Mat3
  trans : Vec3
deriving DecidableEq

/-- Matrix-vector product. -/
def mat3mulv (m : Mat3) (v : Vec3) : Vec3 := ⟨vdot m.r0 v, vdot m.r1 v, vdot m.r2 v⟩

/-- `math::Matrix4f::mult(v, 1.0f)`: affine application of the top three rows. -/
def mat4multv1 (m : Mat4) (v : Vec3) : Vec3 := mat3mulv m.lin v + m.trans

/-- One camera pose as consumed by the loop: calibration, world-to-camera
transform and camera position, produced per pose by the (external)
`fill_calibration` / `fill_world_to_cam` / `fill_camera_pos` calls. -/
structure Camera where
  calib : Mat3
  w2c : Mat4
  pos : Vec3
deriving DecidableEq

/-- Projection into the image plane, from lines 181-182:
`pt = calib * w2c.mult(v, 1.0f)`, `p = (pt[0]/pt[2] - 0.5f, pt[1]/pt[2] - 0.5f)`.
(Rational division by zero yields 0, which lands out of bounds; the float
code would produce inf/nan there.) -/
def projectPoint (cam : Camera) (v : Vec3) : Vec2 :=
  let pt := mat3mulv cam.calib (mat4multv1 cam.w2c v)
  ⟨pt.x / pt.z - 1 / 2, pt.y / pt.z - 1 / 2⟩

/-- Image-bounds test, from line 184 with `width = 1920`, `height = 1080`:
keep iff not (`p[0] < 0 || width <= p[0] || p[1] < 0 || height <= p[1]`). -/
def inImage (p : Vec2) : Bool :=
  decide (0 ≤ p.x) && decide (p.x < 1920) && decide (0 ≤ p.y) && decide (p.y < 1080)

/-- Triangle of the proxy mesh. -/
structure Tri where
  a : Vec3
  b : Vec3
  c : Vec3
deriving DecidableEq

/-- Modelled from the spec: the acc::BVHTree ray-intersection primitive
(an out-of-scope collaborator whose contract is "ray-intersection test"),
as the standard Moeller-Trumbore ray-triangle test.  `tmax = none` models
an unbounded ray (`tmax = inf`). -/
def mtHit (tri : Tri) (o d : Vec3) (tmin : ℚ) (tmax : Option ℚ) : Bool :=
  let e1 := tri.b - tri.a
  let e2 := tri.c - tri.a
  let pv := vcross d e2
  let det := vdot e1 pv
  if det = 0 then false
  else
    let tv := o - tri.a
    let u := vdot tv pv / det
    let qv := vcross tv e1
    let v := vdot d qv / det
    let t := vdot e2 qv / det
    decide (0 ≤ u) && decide (0 ≤ v) && decide (u + v ≤ 1) && decide (tmin ≤ t) &&
      (match tmax with
       | none => true
       | some m => decide (t ≤ m))

/-- Ray-intersection against the whole triangle list (BVH query result). -/
def anyHit (tris : List Tri) (o d : Vec3) (tmin : ℚ) (tmax : Option ℚ) : Bool :=
  tris.any (fun tri => mtHit tri o d tmin tmax)

/-- Occlusion test as constructed by lines 186-192:
`ray.origin = v + v2c * 0.01f`, `ray.dir = v2c / n`, `ray.tmin = 0`,
`ray.tmax = inf`, discard iff `bvh_tree->intersect(ray)`.  With an
unbounded t-range the hit set is invariant under the positive rescaling
from `v2c / n` to `v2c` (proved in `anyHit_smul_pos`), so the unnormalized
direction is used directly. -/
def occluded (tris : List Tri) (v pos : Vec3) : Bool :=
  anyHit tris (v + vsmul (1 / 100) (pos - v)) (pos - v) 0 none

/-- Spec-side occlusion ("intersects some mesh triangle before reaching
the camera"): same ray, but bounded at the camera, which sits at parameter
99/100 along the unnormalized offset ray. -/
def occludedBeforeCamera (tris : List Tri) (v pos : Vec3) : Bool :=
  anyHit tris (v + vsmul (1 / 100) (pos - v)) (pos - v) 0 (some (99 / 100))

/-- Per-point direction-histogram store (models cacc::VectorArray<Vec2f>):
a per-point row counter `num_rows_ptr[i]` and the row matrix
`data_ptr[row * stride + i]`, kept as functions of (row, point). -/
structure HistState where
  numRows : ℕ → ℕ
  data : ℕ → ℕ → Vec2

/-- The zero-initialized store created by `VectorArray::create` (empty
row counts, zeroed payload). -/
def initState : HistState := ⟨fun _ => 0, fun _ _ => ⟨0, 0⟩⟩

/-- One (camera, point) step, from lines 174-203: project, bounds test,
occlusion ray, capacity guard `row >= max_rows`, then write the encoded
direction at `(row, i)` and increment the row count (the no-op write
`num_rows_ptr[i] = row` of line 197 is absorbed). -/
def processPoint (enc : Vec3 → Vec2) (tris : List Tri) (cam : Camera)
    (pts : ℕ → Vec3) (s : HistState) (i : ℕ) : HistState :=
  if inImage (projectPoint cam (pts i)) = false then s
  else if occluded tris (pts i) cam.pos = true then s
  else if maxCameras ≤ s.numRows i then s
  else
    { numRows := fun j => if j = i then s.numRows i + 1 else s.numRows j,
      data := fun r j =>
        if r = s.numRows i ∧ j = i then enc (cam.pos - pts i) else s.data r j }

/-- One camera applied to all points (the inner parallel-for over the
cloud; each point touches only its own column, so the sequential fold is
the parallel loop's semantics). -/
def processCamera (enc : Vec3 → Vec2) (tris : List Tri) (cam : Camera)
    (pts : ℕ → Vec3) (n : ℕ) (s : HistState) : HistState :=
  (List.range n).foldl (processPoint enc tris cam pts) s

/-- The whole accumulation: cameras applied one at a time, in trajectory
order. -/
def accumulate (enc : Vec3 → Vec2) (tris : List Tri) (cams : List Camera)
    (pts : ℕ → Vec3) (n : ℕ) (s : HistState) : HistState :=
  cams.foldl (fun st cam => processCamera enc tris cam pts n st) s

/-- Clamp of a rational to an interval. -/
def clampQ (q lo hi : ℚ) : ℚ := min hi (max lo q)

/-- Export-path quality scalar, from lines 259-267: with
`mean = data[(max_cameras - 2) * stride + i]`,
`eigen = data[(max_cameras - 1) * stride + i]`,
`lambda = max(|eigen[0]|, |eigen[1]|)`, the exported value is
`mean[0] * (10.0f * max(0.0f, min(lambda, 1.0f / 10.0f)))`. -/
def exportValue (hist : ℕ → ℕ → Vec2) (i : ℕ) : ℚ :=
  let mean := hist (maxCameras - 2) i
  let eigen := hist (maxCameras - 1) i
  let lambda := max |eigen.x| |eigen.y|
  mean.x * (10 * max 0 (min lambda (1 / 10)))

/-- Concrete airspace mesh whose planar extent is a non-integer multiple of
the resolution. -/
def c6verts : List Vec3 := [⟨0, 0, 0⟩, ⟨3 / 2, 3 / 2, 1⟩]

/-- Its AABB. -/
def c6aabb : AABB := ⟨⟨0, 0, 0⟩, ⟨3 / 2, 3 / 2, 1⟩⟩

/-- Running maximum over an optional accumulator (the effect of one
rasterization write on its target cell). -/
def optMax (o : Option ℚ) (q : ℚ) : Option ℚ :=
  match o with
  | none => some q
  | some m => some (max m q)

/-- Three-vertex mesh used to exercise the height map: two vertices share
cell (0,0) with heights 5 and 7, one vertex sits in cell (1,0) with
height 3 (so the ground level is 3). -/
def hmapVerts : List Vec3 := [⟨0, 0, 5⟩, ⟨1, 0, 3⟩, ⟨0, 0, 7⟩]

/-- Its bounding box. -/
def hmapAabb : AABB := ⟨⟨0, 0, 0⟩, ⟨1, 0, 7⟩⟩

/-- Trivial direction encoding used to instantiate the abstract spherical
encoding in concrete witnesses. -/
def enc0 : Vec3 → Vec2 := fun _ => ⟨0, 0⟩

/-- Identity 3x3 matrix. -/
def idMat3 : Mat3 := ⟨⟨1, 0, 0⟩, ⟨0, 1, 0⟩, ⟨0, 0, 1⟩⟩

/-- Concrete camera at the origin with identity calibration and
world-to-camera transform. -/
def cam0 : Camera := ⟨idMat3, ⟨idMat3, ⟨0, 0, 0⟩⟩, ⟨0, 0, 0⟩⟩

/-- Concrete one-point proxy cloud: the point (1,1,2) projects to pixel
(0,0) under `cam0` and sees the camera along direction (-1,-1,-2). -/
def pts0 : ℕ → Vec3 := fun _ => ⟨1, 1, 2⟩

/-- A row store whose every point is already full. -/
def fullState : HistState := ⟨fun _ => maxCameras, fun _ _ => ⟨0, 0⟩⟩

/-- A large triangle in the plane z = -101/50, crossed by the occlusion
ray of (`pts0 0`, `cam0`) at parameter t = 2, strictly beyond the camera
(which sits at parameter 99/100). -/
def triBeyond : Tri := ⟨⟨-10, -10, -101 / 50⟩, ⟨10, -10, -101 / 50⟩, ⟨0, 10, -101 / 50⟩⟩

/-- A large triangle in the plane z = 1, between the point (1,1,2) and the
camera at the origin (hit at parameter t = 49/100 < 99/100). -/
def triMid : Tri := ⟨⟨-10, -10, 1⟩, ⟨10, -10, 1⟩, ⟨0, 10, 1⟩⟩

/-- Agreement of two stores on the column of one point. -/
def colEq (s t : HistState) (i : ℕ) : Prop :=
  s.numRows i = t.numRows i ∧ ∀ r, s.data r i = t.data r i

/-!
Helper lemmas about the sampler enumeration.
-/

/-- Characterization of membership in the sample-position list. -/
lemma mem_samplePositions {hm : ℤ → ℤ → ℚ} {minAlt gl res : ℚ} {w h depth : ℕ}
    {x y z : ℕ} :
    (x, y, z) ∈ samplePositions hm minAlt gl res w h depth ↔
      x < w ∧ y < h ∧ z < depth ∧
        max (hm (x : ℤ) (y : ℤ)) minAlt ≤ gl + (z : ℚ) * res := by
  simp only [samplePositions, emittedZs, admissible, List.mem_flatMap, List.mem_map,
    List.mem_range, List.mem_filter, decide_eq_true_eq, Prod.mk.injEq]
  constructor
  · rintro ⟨y', hy', x', hx', z', ⟨hz', hadm⟩, h1, h2, h3⟩
    subst h1; subst h2; subst h3
    exact ⟨hx', hy', hz', hadm⟩
  · rintro ⟨hx, hy, hz, hadm⟩
    exact ⟨y, hy, x, hx, z, ⟨hz, hadm⟩, rfl, rfl, rfl⟩

/-- A fold of single-voxel assignments never touches a voxel outside the
assigned list. -/
lemma foldl_assign_not_mem {α : Type} (l : List (ℕ × ℕ × ℕ)) (img : ℕ × ℕ × ℕ → α)
    (vol : (ℕ × ℕ × ℕ) → Option α) (p : ℕ × ℕ × ℕ) (hp : p ∉ l) :
    l.foldl (fun vol q => fun r => if r = q then some (img q) else vol r) vol p = vol p := by
  induction l generalizing vol with
  | nil => rfl
  | cons a t ih =>
    rw [List.foldl_cons, ih _ (fun hmem => hp (List.mem_cons_of_mem _ hmem))]
    refine if_neg (fun he => hp ?_)
    rw [he]
    exact List.mem_cons_self a t

/-- C4: a voxel (x,y,z) of the grid is emitted as a sample position iff its
world height `ground_level + z*resolution` is at least the minimum
admissible world height `max(height_map(x,y), min_altitude)`, and a voxel
that is not emitted has no histogram image allocated for it in the final
volume. -/
theorem sample_emission_iff (hm : ℤ → ℤ → ℚ) (minAlt gl res : ℚ) (w h depth : ℕ)
    (img : ℕ × ℕ × ℕ → ℚ) (x y z : ℕ) (p : ℕ × ℕ × ℕ)
    (hx : x < w) (hy : y < h) (hz : z < depth)
    (hp : p ∉ samplePositions hm minAlt gl res w h depth) :
    ((x, y, z) ∈ samplePositions hm minAlt gl res w h depth ↔
      max (hm (x : ℤ) (y : ℤ)) minAlt ≤ gl + (z : ℚ) * res) ∧
    volumeAfter (samplePositions hm minAlt gl res w h depth) img p = none := by
  constructor
  · rw [mem_samplePositions]
    exact ⟨fun hmem => hmem.2.2.2, fun hadm => ⟨hx, hy, hz, hadm⟩⟩
  · exact foldl_assign_not_mem _ img _ p hp

unseal Rat.mul Rat.add Rat.sub Rat.inv in
/-- Witness for `sample_emission_iff` at a concrete 1x1x1 grid: the single
voxel (0,0,0) is emitted (its world height 0 meets the bound 0), and the
out-of-list voxel (0,0,5) holds no image. -/
theorem sample_emission_iff_witness :
    (((0, 0, 0) : ℕ × ℕ × ℕ) ∈ samplePositions (fun _ _ => 0) 0 0 1 1 1 1 ↔
      max ((fun _ _ => (0 : ℚ)) (0 : ℤ) (0 : ℤ)) 0 ≤ 0 + (0 : ℚ) * 1) ∧
    volumeAfter (samplePositions (fun _ _ => 0) 0 0 1 1 1 1) (fun _ => (0 : ℚ)) (0, 0, 5) = none :=
  sample_emission_iff (fun _ _ => 0) 0 0 1 1 1 1 (fun _ => 0) 0 0 0 (0, 0, 5)
    (by decide) (by decide) (by decide) (by decide)

/-- C10: the set of emitted z-layers of one (x,y) column is upward closed
below `depth`: if layer z is emitted, every layer between z and the top of
the grid is emitted as well (the admissibility threshold is fixed per
column while world height grows with z when the resolution is positive). -/
theorem column_contiguous_suffix (hm : ℤ → ℤ → ℚ) (minAlt gl res : ℚ)
    (w h depth : ℕ) (x y z z' : ℕ) (hres : 0 < res)
    (hmem : (x, y, z) ∈ samplePositions hm minAlt gl res w h depth)
    (hlt : z < z') (hz' : z' < depth) :
    (x, y, z') ∈ samplePositions hm minAlt gl res w h depth := by
  rw [mem_samplePositions] at hmem ⊢
  obtain ⟨hx, hy, _, hadm⟩ := hmem
  refine ⟨hx, hy, hz', le_trans hadm ?_⟩
  have hmul : (z : ℚ) * res ≤ (z' : ℚ) * res := by
    apply mul_le_mul_of_nonneg_right _ (le_of_lt hres)
    exact_mod_cast le_of_lt hlt
  linarith

unseal Rat.mul Rat.add Rat.sub Rat.inv in
/-- Witness for `column_contiguous_suffix`: on a flat all-admissible 1x1x2
grid, layer 0 is emitted and hence so is layer 1. -/
theorem column_contiguous_suffix_witness :
    ((0, 0, 1) : ℕ × ℕ × ℕ) ∈ samplePositions (fun _ _ => 0) 0 0 1 1 1 2 :=
  column_contiguous_suffix (fun _ _ => 0) 0 0 1 1 1 2 0 0 0 1
    (by decide) (by decide) (by decide) (by decide)

unseal Rat.mul Rat.add Rat.sub Rat.inv in
/-- C6 counterexample: for the mesh `c6verts` at resolution 1 the code
computes width = height = 2 (truncation of extent/resolution + 1), while
the claimed `ceil(extent / resolution) + 1` is 3. -/
theorem grid_dims_ceil_cex :
    calculateAabb c6verts = some c6aabb ∧
    widthOf c6aabb 1 = 2 ∧ heightOf c6aabb 1 = 2 ∧
    ⌈(c6aabb.hi.x - c6aabb.lo.x) / (1 : ℚ)⌉ + 1 = 3 ∧
    ⌈(c6aabb.hi.y - c6aabb.lo.y) / (1 : ℚ)⌉ + 1 = 3 := by
  decide

/-- C6 amended: for every AABB with nonempty planar extent and positive
resolution, the produced height map has dimensions
`floor((max - min) / resolution) + 1` in each of the two planar axes (the
float-to-int conversion truncates, it does not round up). -/
theorem grid_dims_floor_amended (ab : AABB) (res : ℚ) (hres : 0 < res)
    (hx : ab.lo.x ≤ ab.hi.x) (hy : ab.lo.y ≤ ab.hi.y) :
    widthOf ab res = ⌊(ab.hi.x - ab.lo.x) / res⌋ + 1 ∧
    heightOf ab res = ⌊(ab.hi.y - ab.lo.y) / res⌋ + 1 := by
  constructor
  · unfold widthOf cint
    have h0 : (0 : ℚ) ≤ (ab.hi.x - ab.lo.x) / res := by
      apply div_nonneg (by linarith) (le_of_lt hres)
    rw [if_pos (by linarith), Int.floor_add_one]
  · unfold heightOf cint
    have h0 : (0 : ℚ) ≤ (ab.hi.y - ab.lo.y) / res := by
      apply div_nonneg (by linarith) (le_of_lt hres)
    rw [if_pos (by linarith), Int.floor_add_one]

unseal Rat.mul Rat.add Rat.sub Rat.inv in
/-- Witness for `grid_dims_floor_amended` at the unit cube with
resolution 1: both planar dimensions are 2. -/
theorem grid_dims_floor_amended_witness :
    widthOf ⟨⟨0, 0, 0⟩, ⟨1, 1, 1⟩⟩ 1 = ⌊((1 : ℚ) - 0) / 1⌋ + 1 ∧
    heightOf ⟨⟨0, 0, 0⟩, ⟨1, 1, 1⟩⟩ 1 = ⌊((1 : ℚ) - 0) / 1⌋ + 1 :=
  grid_dims_floor_amended ⟨⟨0, 0, 0⟩, ⟨1, 1, 1⟩⟩ 1 (by norm_num) (by norm_num) (by norm_num)

/-- C9: the sampler proceeds past its entry gate only on a valid AABB of
strictly positive volume, and a degenerate (zero or negative volume)
input is rejected before the grid dimensions are even produced. -/
theorem aabb_positive_volume_gate (verts : List Vec3) (res maxAlt : ℚ) :
    (∀ ab dims, samplerSetup verts res maxAlt = some (ab, dims) →
        validAabb ab = true ∧ 0 < volumeAabb ab) ∧
    (∀ ab, calculateAabb verts = some ab → ¬ 0 < volumeAabb ab →
        samplerSetup verts res maxAlt = none) := by
  constructor
  · intro ab dims hsome
    unfold samplerSetup at hsome
    split at hsome
    · cases hsome
    · split_ifs at hsome with hcond
      simp only [Option.some.injEq, Prod.mk.injEq] at hsome
      obtain ⟨rfl, -⟩ := hsome
      exact hcond
  · intro ab hcalc hvol
    simp only [samplerSetup, hcalc]
    rw [if_neg (fun hcond => hvol hcond.2)]

unseal Rat.mul Rat.add Rat.sub Rat.inv in
/-- Witness for `aabb_positive_volume_gate`: the unit cube passes the gate
with positive volume, while a flat (zero-height) mesh is rejected with no
grid produced. -/
theorem aabb_positive_volume_gate_witness :
    (validAabb ⟨⟨0, 0, 0⟩, ⟨1, 1, 1⟩⟩ = true ∧ 0 < volumeAabb ⟨⟨0, 0, 0⟩, ⟨1, 1, 1⟩⟩) ∧
    samplerSetup [⟨0, 0, 0⟩, ⟨1, 1, 0⟩] 1 1 = none :=
  ⟨(aabb_positive_volume_gate [⟨0, 0, 0⟩, ⟨1, 1, 1⟩] 1 1).1 ⟨⟨0, 0, 0⟩, ⟨1, 1, 1⟩⟩ (2, 2, 2)
      (by decide),
   (aabb_positive_volume_gate [⟨0, 0, 0⟩, ⟨1, 1, 0⟩] 1 1).2 ⟨⟨0, 0, 0⟩, ⟨1, 1, 0⟩⟩
      (by decide) (by decide)⟩

/-- A rasterization step leaves every other cell unchanged. -/
lemma hmapStep_ne (ab : AABB) (res : ℚ) (g : Grid) (v : Vec3) (a b : ℤ)
    (hne : cellIndex ab res v ≠ (a, b)) : hmapStep ab res g v a b = g a b := by
  unfold hmapStep
  exact if_neg (fun he => hne he.symm)

/-- A rasterization step turns its target cell into the running maximum of
the old cell value and the vertex height. -/
lemma hmapStep_self (ab : AABB) (res : ℚ) (g : Grid) (v : Vec3) (a b : ℤ)
    (hc : cellIndex ab res v = (a, b)) :
    hmapStep ab res g v a b = optMax (g a b) v.z := by
  unfold hmapStep
  rw [if_pos hc.symm]
  rcases hg : g a b with _ | z
  · rfl
  · show (if v.z < z then some z else some v.z) = some (max z v.z)
    by_cases hlt : v.z < z
    · rw [if_pos hlt, max_eq_left (le_of_lt hlt)]
    · rw [if_neg hlt, max_eq_right (le_of_not_lt hlt)]

/-- The rasterization fold evaluated at a cell equals a fold of the running
maximum over exactly the heights of the vertices mapping to that cell. -/
lemma hmapRaw_cell (ab : AABB) (res : ℚ) (verts : List Vec3) (g : Grid) (a b : ℤ) :
    (verts.foldl (hmapStep ab res) g) a b =
      ((verts.filter (fun v => cellIndex ab res v = (a, b))).map Vec3.z).foldl
        optMax (g a b) := by
  induction verts generalizing g with
  | nil => rfl
  | cons v t ih =>
    rw [List.foldl_cons, ih]
    by_cases hc : cellIndex ab res v = (a, b)
    · rw [List.filter_cons_of_pos (by simpa using hc), List.map_cons, List.foldl_cons,
        hmapStep_self ab res g v a b hc]
    · rw [List.filter_cons_of_neg (by simpa using hc), hmapStep_ne ab res g v a b hc]

/-- Folding `optMax` from a set accumulator is folding `max`. -/
lemma foldl_optMax_some (l : List ℚ) (q0 : ℚ) :
    l.foldl optMax (some q0) = some (l.foldl max q0) := by
  induction l generalizing q0 with
  | nil => rfl
  | cons a t ih => rw [List.foldl_cons, List.foldl_cons]; exact ih (max q0 a)

/-- A fold of `max` stays below any common upper bound. -/
lemma foldl_max_le (t : List ℚ) (a m : ℚ) (ha : a ≤ m) (ht : ∀ q ∈ t, q ≤ m) :
    t.foldl max a ≤ m := by
  induction t generalizing a with
  | nil => exact ha
  | cons b s ih =>
    rw [List.foldl_cons]
    exact ih (max a b) (max_le ha (ht b (List.mem_cons_self b s)))
      (fun q hq => ht q (List.mem_cons_of_mem _ hq))

/-- The accumulator never exceeds the fold of `max`. -/
lemma le_foldl_max_init (t : List ℚ) (a : ℚ) : a ≤ t.foldl max a := by
  induction t generalizing a with
  | nil => exact le_refl a
  | cons b s ih =>
    rw [List.foldl_cons]
    exact le_trans (le_max_left a b) (ih (max a b))

/-- Every member stays below the fold of `max`. -/
lemma mem_le_foldl_max (t : List ℚ) (a m : ℚ) (hm : m ∈ t) : m ≤ t.foldl max a := by
  induction t generalizing a with
  | nil => cases hm
  | cons b s ih =>
    rw [List.foldl_cons]
    rcases List.mem_cons.mp hm with rfl | hmem
    · exact le_trans (le_max_right a m) (le_foldl_max_init s (max a m))
    · exact ih (max a b) hmem

/-- The raw height map at a cell is the `optMax` fold over the heights of
exactly the vertices mapping to that cell. -/
lemma hmapRaw_eq (ab : AABB) (res : ℚ) (verts : List Vec3) (a b : ℤ) :
    hmapRaw ab res verts a b =
      ((verts.filter (fun v => cellIndex ab res v = (a, b))).map Vec3.z).foldl optMax none :=
  hmapRaw_cell ab res verts (fun _ _ => none) a b

/-- C7: a cell into which at least one mesh vertex projects stores the
maximum vertex height over the vertices mapping to it; after ground-level
normalization such a cell holds that maximum minus the ground level, and a
cell with no vertices holds the unset sentinel before normalization and
exactly 0 after. -/
theorem height_map_max_norm (ab : AABB) (res : ℚ) (verts : List Vec3)
    (w h : ℕ) (c : ℤ × ℤ) (v : Vec3) :
    (v ∈ verts → cellIndex ab res v = c →
      (∀ u ∈ verts, cellIndex ab res u = c → u.z ≤ v.z) →
      hmapRaw ab res verts c.1 c.2 = some v.z ∧
      hmapNorm ab res verts w h c.1 c.2 =
        v.z - groundLevel w h (hmapRaw ab res verts)) ∧
    ((∀ u ∈ verts, cellIndex ab res u ≠ c) →
      hmapRaw ab res verts c.1 c.2 = none ∧
      hmapNorm ab res verts w h c.1 c.2 = 0) := by
  obtain ⟨ca, cb⟩ := c
  constructor
  · intro hv hc hub
    have hvz : v.z ∈ (verts.filter (fun u => cellIndex ab res u = (ca, cb))).map Vec3.z :=
      List.mem_map.mpr ⟨v, List.mem_filter.mpr ⟨hv, by simpa using hc⟩, rfl⟩
    have hubz : ∀ q ∈ (verts.filter (fun u => cellIndex ab res u = (ca, cb))).map Vec3.z,
        q ≤ v.z := by
      intro q hq
      obtain ⟨u, hu, rfl⟩ := List.mem_map.mp hq
      obtain ⟨hu1, hu2⟩ := List.mem_filter.mp hu
      exact hub u hu1 (by simpa using hu2)
    have hraw : hmapRaw ab res verts ca cb = some v.z := by
      rw [hmapRaw_eq]
      rcases hzs : (verts.filter (fun u => cellIndex ab res u = (ca, cb))).map Vec3.z
        with _ | ⟨q0, qs⟩
      · rw [hzs] at hvz; cases hvz
      · rw [hzs] at hvz hubz
        rw [List.foldl_cons]
        show qs.foldl optMax (some q0) = some v.z
        rw [foldl_optMax_some]
        congr 1
        apply le_antisymm
        · exact foldl_max_le qs q0 v.z (hubz q0 (List.mem_cons_self q0 qs))
            (fun q hq => hubz q (List.mem_cons_of_mem _ hq))
        · rcases List.mem_cons.mp hvz with heq | hmem
          · rw [heq]; exact le_foldl_max_init qs q0
          · exact mem_le_foldl_max qs q0 v.z hmem
    refine ⟨hraw, ?_⟩
    simp only [hmapNorm, normalizeHmap, hraw]
  · intro hnone
    have hfil : verts.filter (fun u => cellIndex ab res u = (ca, cb)) = [] := by
      rw [List.filter_eq_nil_iff]
      intro u hu
      simpa using hnone u hu
    have hraw : hmapRaw ab res verts ca cb = none := by
      rw [hmapRaw_eq, hfil]
      rfl
    refine ⟨hraw, ?_⟩
    simp only [hmapNorm, normalizeHmap, hraw]

unseal Rat.mul Rat.add Rat.sub Rat.inv in
/-- Witness for `height_map_max_norm` on `hmapVerts`: cell (0,0) stores
max(5,7) = 7 raw and 7 minus the ground level after normalization, while
the vertex-free cell (5,5) stores the sentinel raw and exactly 0 after
normalization. -/
theorem height_map_max_norm_witness :
    (hmapRaw hmapAabb 1 hmapVerts 0 0 = some 7 ∧
     hmapNorm hmapAabb 1 hmapVerts 2 1 0 0 =
       7 - groundLevel 2 1 (hmapRaw hmapAabb 1 hmapVerts)) ∧
    (hmapRaw hmapAabb 1 hmapVerts 5 5 = none ∧
     hmapNorm hmapAabb 1 hmapVerts 2 1 5 5 = 0) :=
  ⟨(height_map_max_norm hmapAabb 1 hmapVerts 2 1 (0, 0) ⟨0, 0, 7⟩).1
      (by decide) (by decide) (by decide),
   (height_map_max_norm hmapAabb 1 hmapVerts 2 1 (5, 5) ⟨0, 0, 7⟩).2 (by decide)⟩

/-- A filterMap that maps every element to a constant `some` is a map. -/
lemma filterMap_const_some {α : Type} (l : List α) (q : ℚ) :
    l.filterMap (fun _ => some q) = l.map (fun _ => q) := by
  induction l with
  | nil => rfl
  | cons a t ih => simp [ih]

/-- Folding `min` over a constant list returns the accumulator. -/
lemma foldl_min_const (t : List ℚ) (q : ℚ) (ht : ∀ x ∈ t, x = q) :
    t.foldl min q = q := by
  induction t with
  | nil => rfl
  | cons a s ih =>
    rw [List.foldl_cons, ht a (List.mem_cons_self a s), min_self]
    exact ih (fun x hx => ht x (List.mem_cons_of_mem _ hx))

/-- The ground level of a constant (all cells set to q) height map is q,
provided the grid is nonempty. -/
lemma groundLevel_const (w h : ℕ) (q : ℚ) (hw : 0 < w) (hh : 0 < h) :
    groundLevel w h (fun _ _ => some q) = q := by
  have hmem : ((0 : ℕ), (0 : ℕ)) ∈ cellList w h := by
    simp only [cellList, List.mem_flatMap, List.mem_map, List.mem_range]
    exact ⟨0, hh, 0, hw, rfl⟩
  unfold groundLevel
  rw [filterMap_const_some]
  rcases hc : cellList w h with _ | ⟨c0, cs⟩
  · rw [hc] at hmem; cases hmem
  · rw [List.map_cons]
    exact foldl_min_const _ q (fun x hx => by
      obtain ⟨u, -, hux⟩ := List.mem_map.mp hx
      exact hux.symm)

/-- The normalization of a constant height map is identically zero. -/
lemma normalizeHmap_const (w h : ℕ) (q : ℚ) (hw : 0 < w) (hh : 0 < h) :
    ∀ a b : ℤ, normalizeHmap w h (fun _ _ => some q) a b = 0 := by
  intro a b
  unfold normalizeHmap
  rw [groundLevel_const w h q hw hh]
  exact sub_self q

unseal Rat.mul Rat.add Rat.sub Rat.inv in
/-- C5 counterexample: a flat height map of constant value -1 on a 1x1
footprint with min_altitude = 0, resolution 1 and depth 3 emits only 2
voxels in its column (layers with world height -1 are below min_altitude
and are skipped), while the claimed count
`depth - floor((h - ground_level)/resolution)` is 3. -/
theorem flat_map_count_cex :
    (emittedZs (normalizeHmap 1 1 (fun _ _ => some (-1))) 0
        (groundLevel 1 1 (fun _ _ => some (-1))) 1 3 0 0).length = 2 ∧
    3 - Int.toNat ⌊((-1 : ℚ) - groundLevel 1 1 (fun _ _ => some (-1))) / 1⌋ = 3 ∧
    (2 : ℕ) ≠ 3 := by
  decide

/-- C5 amended: for a flat height map of constant value h fed through the
normalization pipeline, with min_altitude = 0 and positive resolution, the
claimed per-column count `depth - floor((h - ground_level)/resolution)`
(clamped to non-negative) holds provided h is at or above min_altitude
(h >= 0); and (unconditionally in h) no emitted voxel has world height
below max(h, min_altitude). -/
theorem flat_map_count_amended (hq res : ℚ) (w h depth x y : ℕ)
    (hres : 0 < res) (hw : 0 < w) (hh : 0 < h) :
    (0 ≤ hq →
      (emittedZs (normalizeHmap w h (fun _ _ => some hq)) 0
          (groundLevel w h (fun _ _ => some hq)) res depth x y).length
        = depth - Int.toNat ⌊(hq - groundLevel w h (fun _ _ => some hq)) / res⌋) ∧
    ∀ z ∈ emittedZs (normalizeHmap w h (fun _ _ => some hq)) 0
        (groundLevel w h (fun _ _ => some hq)) res depth x y,
      max hq 0 ≤ groundLevel w h (fun _ _ => some hq) + (z : ℚ) * res := by
  have hgl : groundLevel w h (fun _ _ => some hq) = hq := groundLevel_const w h hq hw hh
  constructor
  · intro hpos
    have hadm : ∀ z : ℕ,
        admissible (normalizeHmap w h (fun _ _ => some hq)) 0
          (groundLevel w h (fun _ _ => some hq)) res x y z = true := by
      intro z
      unfold admissible
      rw [normalizeHmap_const w h hq hw hh, hgl, max_self]
      exact decide_eq_true
        (add_nonneg hpos (mul_nonneg (Nat.cast_nonneg z) (le_of_lt hres)))
    have hfil : emittedZs (normalizeHmap w h (fun _ _ => some hq)) 0
        (groundLevel w h (fun _ _ => some hq)) res depth x y = List.range depth := by
      unfold emittedZs
      exact List.filter_eq_self.mpr (fun z _ => hadm z)
    rw [hfil, List.length_range, hgl, sub_self, zero_div, Int.floor_zero, Int.toNat_zero,
      Nat.sub_zero]
  · intro z hz
    have hguard : max (normalizeHmap w h (fun _ _ => some hq) (x : ℤ) (y : ℤ)) 0 ≤
        groundLevel w h (fun _ _ => some hq) + (z : ℚ) * res := by
      unfold emittedZs at hz
      have hz2 := (List.mem_filter.mp hz).2
      unfold admissible at hz2
      exact of_decide_eq_true hz2
    rw [normalizeHmap_const w h hq hw hh, max_self] at hguard
    rw [hgl] at hguard ⊢
    have hzres : (0 : ℚ) ≤ (z : ℚ) * res := mul_nonneg (Nat.cast_nonneg z) (le_of_lt hres)
    exact max_le (by linarith) hguard

unseal Rat.mul Rat.add Rat.sub Rat.inv in
/-- Witness for `flat_map_count_amended`: a flat map of value 2 on a 1x1
footprint with resolution 1 and depth 3 emits all 3 layers, matching the
claimed count; and on a flat map of value -1 (where the count formula
fails) the emitted layer z = 1 still clears max(-1, 0). -/
theorem flat_map_count_amended_witness :
    ((emittedZs (normalizeHmap 1 1 (fun _ _ => some 2)) 0
        (groundLevel 1 1 (fun _ _ => some 2)) 1 3 0 0).length
      = 3 - Int.toNat ⌊((2 : ℚ) - groundLevel 1 1 (fun _ _ => some 2)) / 1⌋) ∧
    max (-1 : ℚ) 0 ≤ groundLevel 1 1 (fun _ _ => some (-1)) + (1 : ℕ) * (1 : ℚ) :=
  ⟨(flat_map_count_amended 2 1 1 1 3 0 0 (by norm_num) (by norm_num)
      (by norm_num)).1 (by norm_num),
   (flat_map_count_amended (-1) 1 1 1 3 0 0 (by norm_num) (by norm_num)
      (by norm_num)).2 1 (by decide)⟩

/-- C8: the exported quality scalar of point i equals the first component
of its mean-direction row (second-to-last row, index max_cameras - 2 = 18)
times `10 * clamp(lambda, 0, 1/10)`, where lambda is the
largest-magnitude component of its anisotropy/eigen row (last row, index
max_cameras - 1 = 19). -/
theorem export_value_formula (hist : ℕ → ℕ → Vec2) (i : ℕ) :
    exportValue hist i =
      (hist 18 i).x * (10 * clampQ (max |(hist 19 i).x| |(hist 19 i).y|) 0 (1 / 10)) := by
  have key : ∀ L : ℚ, max 0 (min L (1 / 10)) = min (1 / 10) (max 0 L) := by
    intro L
    rw [max_min_distrib_left, max_eq_right (by norm_num : (0 : ℚ) ≤ 1 / 10), min_comm]
  simp only [exportValue, clampQ, maxCameras]
  rw [key]

/-- A fold preserves any invariant preserved by its step. -/
lemma foldl_inv {α β : Type} (P : α → Prop) (f : α → β → α) (l : List β)
    (s : α) (hs : P s) (hstep : ∀ a b, P a → P (f a b)) : P (l.foldl f s) := by
  induction l generalizing s with
  | nil => exact hs
  | cons b t ih => exact ih (f s b) (hstep s b hs)

/-- One accumulation step keeps every per-point row count within the
capacity. -/
lemma processPoint_numRows_le (enc : Vec3 → Vec2) (tris : List Tri) (cam : Camera)
    (pts : ℕ → Vec3) (s : HistState) (i : ℕ)
    (hb : ∀ j, s.numRows j ≤ maxCameras) :
    ∀ j, (processPoint enc tris cam pts s i).numRows j ≤ maxCameras := by
  intro j
  unfold processPoint
  split_ifs with h1 h2 h3
  · exact hb j
  · exact hb j
  · exact hb j
  · show (if j = i then s.numRows i + 1 else s.numRows j) ≤ maxCameras
    split_ifs with hj
    · exact Nat.succ_le_of_lt (Nat.lt_of_not_le h3)
    · exact hb j

/-- C1: starting from the freshly created (empty) store, the number of
observation rows of every point never exceeds max_cameras = 20 over any
trajectory; and once a point's store is full, processing a further
(visible or not) observation for it leaves the whole store unchanged —
the row count, that point's rows, and every other point's rows — with no
error raised (the step is a total no-op). -/
theorem row_store_bound (enc : Vec3 → Vec2) (tris : List Tri) (cams : List Camera)
    (pts : ℕ → Vec3) (n i : ℕ) :
    (accumulate enc tris cams pts n initState).numRows i ≤ maxCameras ∧
    ∀ (cam : Camera) (s : HistState), s.numRows i = maxCameras →
      processPoint enc tris cam pts s i = s := by
  constructor
  · have hinv : ∀ j, (accumulate enc tris cams pts n initState).numRows j ≤ maxCameras := by
      unfold accumulate
      exact foldl_inv (fun st : HistState => ∀ j, st.numRows j ≤ maxCameras)
        (fun st cam => processCamera enc tris cam pts n st) cams initState
        (fun j => Nat.zero_le _)
        (fun st cam hst => by
          unfold processCamera
          exact foldl_inv (fun st2 : HistState => ∀ j, st2.numRows j ≤ maxCameras)
            (processPoint enc tris cam pts) (List.range n) st hst
            (fun a b ha => processPoint_numRows_le enc tris cam pts a b ha))
    exact hinv i
  · intro cam s hfull
    unfold processPoint
    split_ifs with h1 h2 h3
    · rfl
    · rfl
    · rfl
    · exact absurd (le_of_eq hfull.symm) h3

/-- Witness for `row_store_bound`: after a one-camera trajectory the
single point holds at most 20 rows, and on an already-full store the
accumulation step is the identity. -/
theorem row_store_bound_witness :
    (accumulate enc0 [] [cam0] pts0 1 initState).numRows 0 ≤ maxCameras ∧
    processPoint enc0 [] cam0 pts0 fullState 0 = fullState :=
  ⟨(row_store_bound enc0 [] [cam0] pts0 1 0).1,
   (row_store_bound enc0 [] [cam0] pts0 1 0).2 cam0 fullState rfl⟩

/-- Column agreement is transitive. -/
lemma colEq_trans {s t u : HistState} {i : ℕ} (h1 : colEq s t i) (h2 : colEq t u i) :
    colEq s u i :=
  ⟨h1.1.trans h2.1, fun r => (h1.2 r).trans (h2.2 r)⟩

/-- Processing another point leaves a point's column untouched. -/
lemma processPoint_other (enc : Vec3 → Vec2) (tris : List Tri) (cam : Camera)
    (pts : ℕ → Vec3) (s : HistState) {i j : ℕ} (hij : j ≠ i) :
    colEq (processPoint enc tris cam pts s j) s i := by
  unfold processPoint
  split_ifs with h1 h2 h3
  · exact ⟨rfl, fun r => rfl⟩
  · exact ⟨rfl, fun r => rfl⟩
  · exact ⟨rfl, fun r => rfl⟩
  · constructor
    · show (if i = j then s.numRows j + 1 else s.numRows i) = s.numRows i
      rw [if_neg (fun he => hij he.symm)]
    · intro r
      show (if r = s.numRows j ∧ i = j then enc (cam.pos - pts j) else s.data r i) = s.data r i
      rw [if_neg (fun he => hij he.2.symm)]

/-- The effect of one accumulation step on a point's own column depends
only on that column. -/
lemma processPoint_congr (enc : Vec3 → Vec2) (tris : List Tri) (cam : Camera)
    (pts : ℕ → Vec3) {s t : HistState} {i : ℕ} (h : colEq s t i) :
    colEq (processPoint enc tris cam pts s i) (processPoint enc tris cam pts t i) i := by
  obtain ⟨hn, hd⟩ := h
  unfold processPoint
  rw [hn]
  split_ifs with h1 h2 h3
  · exact ⟨hn, hd⟩
  · exact ⟨hn, hd⟩
  · exact ⟨hn, hd⟩
  · constructor
    · show (if i = i then t.numRows i + 1 else s.numRows i)
        = (if i = i then t.numRows i + 1 else t.numRows i)
      rw [if_pos rfl, if_pos rfl]
    · intro r
      show (if r = t.numRows i ∧ i = i then enc (cam.pos - pts i) else s.data r i)
        = (if r = t.numRows i ∧ i = i then enc (cam.pos - pts i) else t.data r i)
      by_cases hr : r = t.numRows i ∧ i = i
      · rw [if_pos hr, if_pos hr]
      · rw [if_neg hr, if_neg hr]
        exact hd r

/-- Folding accumulation steps over points other than i leaves column i
untouched. -/
lemma foldl_points_other (enc : Vec3 → Vec2) (tris : List Tri) (cam : Camera)
    (pts : ℕ → Vec3) (l : List ℕ) (s : HistState) (i : ℕ) (hl : i ∉ l) :
    colEq (l.foldl (processPoint enc tris cam pts) s) s i := by
  induction l generalizing s with
  | nil => exact ⟨rfl, fun r => rfl⟩
  | cons j t ih =>
    rw [List.foldl_cons]
    refine colEq_trans (ih _ (fun hm => hl (List.mem_cons_of_mem _ hm))) ?_
    exact processPoint_other enc tris cam pts s
      (fun he => hl (List.mem_cons.mpr (Or.inl he.symm)))

/-- The column of point i after a whole camera pass equals the column
after the single step of point i alone (the other points' steps commute
away on this column). -/
lemma processCamera_col (enc : Vec3 → Vec2) (tris : List Tri) (cam : Camera)
    (pts : ℕ → Vec3) (n : ℕ) (s : HistState) (i : ℕ) (hin : i < n) :
    colEq (processCamera enc tris cam pts n s)
      (processPoint enc tris cam pts s i) i := by
  unfold processCamera
  rw [show n = (i + 1) + (n - (i + 1)) from by omega, List.range_add, List.range_succ,
    List.foldl_append, List.foldl_append]
  have hpre : colEq ((List.range i).foldl (processPoint enc tris cam pts) s) s i :=
    foldl_points_other enc tris cam pts (List.range i) s i
      (fun hm => lt_irrefl i (List.mem_range.mp hm))
  have hmid : colEq
      ([i].foldl (processPoint enc tris cam pts)
        ((List.range i).foldl (processPoint enc tris cam pts) s))
      (processPoint enc tris cam pts s i) i := by
    rw [List.foldl_cons, List.foldl_nil]
    exact processPoint_congr enc tris cam pts hpre
  refine colEq_trans ?_ hmid
  apply foldl_points_other
  intro hm
  obtain ⟨k, -, hk⟩ := List.mem_map.mp hm
  omega

/-- Dropping the upper ray bound can only add hits. -/
lemma mtHit_mono (tri : Tri) (o d : Vec3) (m : ℚ)
    (h : mtHit tri o d 0 (some m) = true) : mtHit tri o d 0 none = true := by
  simp only [mtHit] at h ⊢
  by_cases hdet : vdot (tri.b - tri.a) (vcross d (tri.c - tri.a)) = 0
  · rw [if_pos hdet] at h
    cases h
  · rw [if_neg hdet] at h ⊢
    simp only [Bool.and_true, Bool.and_eq_true, decide_eq_true_eq] at h ⊢
    tauto

/-- A hit before the camera is a hit of the unbounded occlusion ray. -/
lemma occluded_of_before (tris : List Tri) (v pos : Vec3)
    (h : occludedBeforeCamera tris v pos = true) : occluded tris v pos = true := by
  unfold occludedBeforeCamera anyHit at h
  unfold occluded anyHit
  rw [List.any_eq_true] at h ⊢
  obtain ⟨tri, htri, hhit⟩ := h
  exact ⟨tri, htri, mtHit_mono tri _ _ _ hhit⟩

/-- Scalar multiplication distributes over the cross product on the left. -/
lemma vcross_smul_left (c : ℚ) (a b : Vec3) :
    vcross (vsmul c a) b = vsmul c (vcross a b) := by
  unfold vcross vsmul
  simp only [Vec3.mk.injEq]
  refine ⟨by ring, by ring, by ring⟩

/-- Dot product with a scaled right argument. -/
lemma vdot_smul_right (c : ℚ) (a b : Vec3) : vdot a (vsmul c b) = c * vdot a b := by
  unfold vdot vsmul
  ring

/-- Dot product with a scaled left argument. -/
lemma vdot_smul_left (c : ℚ) (a b : Vec3) : vdot (vsmul c a) b = c * vdot a b := by
  unfold vdot vsmul
  ring

/-- The unbounded-ray hit test is invariant under positive rescaling of the
ray direction; this is why `occluded` may use the unnormalized view
direction in place of the source's `v2c / n` with `tmax = inf`. -/
lemma mtHit_smul_pos (tri : Tri) (o d : Vec3) (c : ℚ) (hc : 0 < c) :
    mtHit tri o (vsmul c d) 0 none = mtHit tri o d 0 none := by
  have hcne : c ≠ 0 := ne_of_gt hc
  have harg : ∀ yq dq : ℚ, decide (0 ≤ yq / (c * dq)) = decide (0 ≤ yq / dq) := by
    intro yq dq
    rw [decide_eq_decide, mul_comm, ← div_div, le_div_iff₀ hc, zero_mul]
  simp only [mtHit, vcross_smul_left, vdot_smul_right, vdot_smul_left]
  by_cases hdet : vdot (tri.b - tri.a) (vcross d (tri.c - tri.a)) = 0
  · rw [if_pos hdet, if_pos (by rw [hdet, mul_zero])]
  · rw [if_neg hdet, if_neg (fun hz => hdet ((mul_eq_zero.mp hz).resolve_left hcne)),
      mul_div_mul_left _ _ hcne, mul_div_mul_left _ _ hcne, harg]

/-- Whole-list version of `mtHit_smul_pos`. -/
lemma anyHit_smul_pos (tris : List Tri) (o d : Vec3) (c : ℚ) (hc : 0 < c) :
    anyHit tris o (vsmul c d) 0 none = anyHit tris o d 0 none := by
  unfold anyHit
  congr 1
  funext tri
  exact mtHit_smul_pos tri o d c hc

unseal Rat.mul Rat.add Rat.sub Rat.inv in
/-- C2 counterexample: a one-point cloud with no occluders and 21
identical camera poses, each with clear line of sight and an in-bounds
projection (checked below); after accumulation the point holds 20 rows,
not one row per qualifying camera (21), so the claim as stated fails once
the bounded store is full. -/
theorem visibility_exact_row_cex :
    inImage (projectPoint cam0 (pts0 0)) = true ∧
    occluded [] (pts0 0) cam0.pos = false ∧
    (accumulate enc0 [] (List.replicate 21 cam0) pts0 1 initState).numRows 0 = 20 ∧
    (20 : ℕ) ≠ 21 := by
  decide

/-- C2 amended: for every camera pass of the accumulator and point i of
the cloud, (a) if the point is strictly behind an occluding triangle —
the occlusion ray hits a triangle before reaching the camera — its column
receives no row for that camera; (b) if its projection is in bounds, the
occlusion ray hits nothing, and the row store still has room
(fewer than max_cameras rows), exactly one row is appended for that
camera: the count grows by one, the new row lands at the old count, and
all other rows of the column are unchanged. -/
theorem visibility_rows_amended (enc : Vec3 → Vec2) (tris : List Tri) (cam : Camera)
    (pts : ℕ → Vec3) (n i : ℕ) (s : HistState) (hin : i < n) :
    (occludedBeforeCamera tris (pts i) cam.pos = true →
      (processCamera enc tris cam pts n s).numRows i = s.numRows i ∧
      ∀ r, (processCamera enc tris cam pts n s).data r i = s.data r i) ∧
    (inImage (projectPoint cam (pts i)) = true →
      occluded tris (pts i) cam.pos = false →
      s.numRows i < maxCameras →
      (processCamera enc tris cam pts n s).numRows i = s.numRows i + 1 ∧
      (processCamera enc tris cam pts n s).data (s.numRows i) i = enc (cam.pos - pts i) ∧
      ∀ r, r ≠ s.numRows i →
        (processCamera enc tris cam pts n s).data r i = s.data r i) := by
  have hcol := processCamera_col enc tris cam pts n s i hin
  constructor
  · intro hoccb
    have hocc : occluded tris (pts i) cam.pos = true :=
      occluded_of_before tris (pts i) cam.pos hoccb
    have hpp : processPoint enc tris cam pts s i = s := by
      unfold processPoint
      by_cases h1 : inImage (projectPoint cam (pts i)) = false
      · rw [if_pos h1]
      · rw [if_neg h1, if_pos hocc]
    rw [hpp] at hcol
    exact ⟨hcol.1, hcol.2⟩
  · intro himg hnoc hroom
    have hpp : processPoint enc tris cam pts s i =
        { numRows := fun j => if j = i then s.numRows i + 1 else s.numRows j,
          data := fun r j =>
            if r = s.numRows i ∧ j = i then enc (cam.pos - pts i) else s.data r j } := by
      unfold processPoint
      rw [if_neg (by rw [himg]; exact fun hf => Bool.noConfusion hf),
        if_neg (by rw [hnoc]; exact fun hf => Bool.noConfusion hf),
        if_neg (Nat.not_le.mpr hroom)]
    rw [hpp] at hcol
    refine ⟨?_, ?_, ?_⟩
    · rw [hcol.1]
      show (if i = i then s.numRows i + 1 else s.numRows i) = s.numRows i + 1
      rw [if_pos rfl]
    · rw [hcol.2 (s.numRows i)]
      show (if s.numRows i = s.numRows i ∧ i = i then enc (cam.pos - pts i)
        else s.data (s.numRows i) i) = enc (cam.pos - pts i)
      rw [if_pos ⟨rfl, rfl⟩]
    · intro r hr
      rw [hcol.2 r]
      show (if r = s.numRows i ∧ i = i then enc (cam.pos - pts i) else s.data r i)
        = s.data r i
      rw [if_neg (fun hcond => hr hcond.1)]

unseal Rat.mul Rat.add Rat.sub Rat.inv in
/-- Witness for `visibility_rows_amended`: with the blocking triangle
`triMid` the point's count is unchanged by the camera pass; with no
occluders the count grows by exactly one. -/
theorem visibility_rows_amended_witness :
    (processCamera enc0 [triMid] cam0 pts0 1 initState).numRows 0 = initState.numRows 0 ∧
    (processCamera enc0 [] cam0 pts0 1 initState).numRows 0 = initState.numRows 0 + 1 :=
  ⟨((visibility_rows_amended enc0 [triMid] cam0 pts0 1 0 initState (by decide)).1
      (by decide)).1,
   ((visibility_rows_amended enc0 [] cam0 pts0 1 0 initState (by decide)).2
      (by decide) (by decide) (by decide)).1⟩

unseal Rat.mul Rat.add Rat.sub Rat.inv in
/-- C3 counterexample: the only triangle `triBeyond` crosses the occlusion
ray strictly beyond the camera (at parameter 2, the camera sits at 99/100),
so no triangle is intersected before reaching the camera; yet the
observation is discarded, because the source ray is unbounded
(`ray.tmax = inf`): after the camera pass the in-bounds point still has
zero rows. -/
theorem occlusion_tmax_cex :
    inImage (projectPoint cam0 (pts0 0)) = true ∧
    occludedBeforeCamera [triBeyond] (pts0 0) cam0.pos = false ∧
    occluded [triBeyond] (pts0 0) cam0.pos = true ∧
    (processCamera enc0 [triBeyond] cam0 pts0 1 initState).numRows 0 = 0 := by
  decide

/-- C3 amended: for a point whose projection is in bounds and whose row
store has room, the observation is discarded for that camera exactly when
the occlusion ray — cast from the small offset outside the surface toward
the camera but UNBOUNDED (`tmax = inf`) — intersects some mesh triangle
at any parameter t >= 0; an intersection lying beyond the camera also
causes the discard. -/
theorem occlusion_unbounded_amended (enc : Vec3 → Vec2) (tris : List Tri) (cam : Camera)
    (pts : ℕ → Vec3) (n i : ℕ) (s : HistState) (hin : i < n)
    (himg : inImage (projectPoint cam (pts i)) = true)
    (hroom : s.numRows i < maxCameras) :
    (processCamera enc tris cam pts n s).numRows i = s.numRows i ↔
      occluded tris (pts i) cam.pos = true := by
  have hcol := processCamera_col enc tris cam pts n s i hin
  constructor
  · intro hsame
    by_contra hocc
    have hnoc : occluded tris (pts i) cam.pos = false := by
      cases hb : occluded tris (pts i) cam.pos with
      | true => exact absurd hb hocc
      | false => rfl
    have hstep : (processPoint enc tris cam pts s i).numRows i = s.numRows i + 1 := by
      unfold processPoint
      rw [if_neg (by rw [himg]; exact fun hf => Bool.noConfusion hf),
        if_neg (by rw [hnoc]; exact fun hf => Bool.noConfusion hf),
        if_neg (Nat.not_le.mpr hroom)]
      show (if i = i then s.numRows i + 1 else s.numRows i) = s.numRows i + 1
      rw [if_pos rfl]
    rw [hcol.1, hstep] at hsame
    omega
  · intro hocc
    have hpp : processPoint enc tris cam pts s i = s := by
      unfold processPoint
      by_cases h1 : inImage (projectPoint cam (pts i)) = false
      · rw [if_pos h1]
      · rw [if_neg h1, if_pos hocc]
    rw [hcol.1, hpp]

unseal Rat.mul Rat.add Rat.sub Rat.inv in
/-- Witness for `occlusion_unbounded_amended` with the blocking triangle
`triMid`: the point's count is unchanged iff the unbounded occlusion ray
hits a triangle (here it does). -/
theorem occlusion_unbounded_amended_witness :
    (processCamera enc0 [triMid] cam0 pts0 1 initState).numRows 0 = initState.numRows 0 ↔
      occluded [triMid] (pts0 0) cam0.pos = true :=
  occlusion_unbounded_amended enc0 [triMid] cam0 pts0 1 0 initState
    (by decide) (by decide) (by decide)
